import Mathlib

/-!
Shallow embedding of the transaction-schedule serializability analyzers of this
repository (homework-7 csr.py, homework-8 csr-ocsr-cocsr.py, homework-10 xcsr.py),
together with theorems settling the frozen claims about them.

Transactions and variables are identified by strings, exactly as in the Python
source (the regex parser captures them as strings).  Each analyzer file defines
its own Op dataclass, so each gets its own namespace here.  The networkx
MultiDiGraph is embedded as a node list plus a labeled edge list holding one
entry per conflicting operation pair the code generates; we keep the two
operations themselves as the label.  The Python code adds every edge with the
FIXED key 0, so networkx stores at most one edge per ordered pair (u, v) — a
later add of the same pair only overwrites the label — hence an ordered pair is
an edge of the program's graph iff some entry with that pair occurs in this
list, while the number of entries for a pair is not meaningful (the program
keeps one) and no theorem here depends on it.  Acyclicity testing
(networkx.is_directed_acyclic_graph) is embedded as a fuel-bounded Kahn
elimination, and networkx.all_topological_sorts as the standard exhaustive
zero-in-degree backtracking enumeration.
-/

/-- A labeled edge of the conflict multigraph: the Python code stores
`(prev_op.tr, op.tr, 0, label)` where the label names the pair
`prev_op -> op` that produced the edge; we keep the pair itself. -/
structure CEdge (α : Type) where
  src : String
  dst : String
  prevOp : α
  curOp : α
deriving DecidableEq

/-- Forget the labels: the underlying directed edges. -/
def edgePairs {α : Type} (es : List (CEdge α)) : List (String × String) :=
  es.map (fun e => (e.src, e.dst))

/-- First-occurrence deduplication, with an accumulator of already seen keys.
Models the key order of a Python dict (insertion order = first occurrence)
and the node set of a networkx graph built by add_nodes_from. -/
def dedupFirstAux : List String → List String → List String
  | _, [] => []
  | seen, x :: xs =>
    if x ∈ seen then dedupFirstAux seen xs
    else x :: dedupFirstAux (x :: seen) xs

/-- The distinct elements of a list, in order of first occurrence. -/
def dedupFirst (l : List String) : List String := dedupFirstAux [] l

/-- n has no incoming edge in the edge list. -/
def noIncoming (edges : List (String × String)) (n : String) : Bool :=
  edges.all (fun e => e.2 != n)

/-- Fuel-bounded Kahn elimination: repeatedly remove a node with no incoming
edge together with its outgoing edges; the graph is acyclic iff all nodes get
eliminated.  Models networkx.is_directed_acyclic_graph (edge multiplicity and
labels are irrelevant to the verdict). -/
def kahnAux : Nat → List String → List (String × String) → Bool
  | 0, nodes, _ => nodes.isEmpty
  | fuel + 1, nodes, edges =>
    match nodes.find? (noIncoming edges) with
    | none => nodes.isEmpty
    | some n => kahnAux fuel (nodes.filter (fun m => m != n)) (edges.filter (fun e => e.1 != n))

/-- Acyclicity of a directed (multi)graph given as node and edge lists. -/
def isDAG (nodes : List String) (edges : List (String × String)) : Bool :=
  kahnAux nodes.length nodes edges

/-- Exhaustive enumeration of the topological sorts of a directed graph by
backtracking over the zero-in-degree candidates, the classical linear-extension
enumeration performed by networkx.all_topological_sorts. -/
def allTopSortsAux : Nat → List String → List (String × String) → List (List String)
  | 0, nodes, _ => if nodes.isEmpty then [[]] else []
  | fuel + 1, nodes, edges =>
    if nodes.isEmpty then [[]]
    else
      (nodes.filter (noIncoming edges)).flatMap
        (fun n =>
          (allTopSortsAux fuel (nodes.filter (fun m => m != n))
              (edges.filter (fun e => e.1 != n))).map
            (fun ord => n :: ord))

/-- All topological sorts of the graph. -/
def allTopSorts (nodes : List String) (edges : List (String × String)) : List (List String) :=
  allTopSortsAux nodes.length nodes edges

namespace HW8

/-- Operation kinds of homework-8 csr-ocsr-cocsr.py: its parser pattern accepts
exactly r, w and c. -/
inductive OpType where
  | r
  | w
  | c
deriving DecidableEq

/-- The Op dataclass of homework-8: op_type, tr, variable (the source field
`variable` is called `var` here because `variable` is a Lean keyword).
A commit is parsed with var = "". -/
structure Op where
  op_type : OpType
  tr : String
  var : String
deriving DecidableEq

/-- The conflict graph of homework-8. -/
structure Graph where
  nodes : List String
  edges : List (CEdge Op)

/-- The inner loop of build_conflict_graph (homework-8 lines 45-54), with the
already scanned prefix ops[:i] of the current variable group as accumulator:
a read gets an edge from every earlier write on the same variable (the source
does NOT compare transactions here), a write gets an edge from every earlier
operation of a different transaction, a commit gets none. -/
def edgesScan : List Op → List Op → List (CEdge Op)
  | _, [] => []
  | past, op :: rest =>
    (match op.op_type with
      | OpType.r =>
          (past.filter (fun p => p.op_type == OpType.w)).map (fun p => ⟨p.tr, op.tr, p, op⟩)
      | OpType.w =>
          (past.filter (fun p => p.tr != op.tr)).map (fun p => ⟨p.tr, op.tr, p, op⟩)
      | OpType.c => []) ++ edgesScan (past ++ [op]) rest

/-- build_conflict_graph of homework-8 (lines 35-55): group the schedule by
variable preserving order (a Python dict in insertion order), add every
transaction identifier as a node, then scan each variable group. -/
def build_conflict_graph (sch : List Op) : Graph :=
  ⟨dedupFirst (sch.map Op.tr),
   (dedupFirst (sch.map Op.var)).flatMap
     (fun v => edgesScan [] (sch.filter (fun op => op.var == v)))⟩

/-- get_equivalent_histories (homework-8 lines 58-59): all topological sorts of
the conflict graph. -/
def get_equivalent_histories (g : Graph) : List (List String) :=
  allTopSorts g.nodes (edgePairs g.edges)

/-- Whether an operation is a commit. -/
def isC (op : Op) : Bool := op.op_type == OpType.c

/-- The key used by unique_everseen in is_in_ocsr (homework-8 line 64):
('c', tr) for a commit, ('rw', tr) otherwise; the first component is embedded
as a Bool (true for the commit key). -/
def ocsrKey (op : Op) : Bool × String := (isC op, op.tr)

/-- more_itertools.unique_everseen with the is_in_ocsr key: keep each element
whose key was not seen before. -/
def uniqueEverseenAux : List (Bool × String) → List Op → List Op
  | _, [] => []
  | seen, op :: rest =>
    if ocsrKey op ∈ seen then uniqueEverseenAux seen rest
    else op :: uniqueEverseenAux (ocsrKey op :: seen) rest

/-- The reduced sequence of is_in_ocsr: each transaction's first read or write
and its first commit, at their original relative positions. -/
def firstOps (h : List Op) : List Op := uniqueEverseenAux [] h

/-- The deps dict of is_in_ocsr (homework-8 lines 66-71), as an association
list: for a commit entry, the transaction identifiers of the non-commit entries
after it in first_ops (the list first_ops[i+1:] seen by the loop is exactly the
tail at that point), recorded only when non-empty.  The keys of first_ops are
pairwise distinct, so at most one entry per transaction is produced and the
association-list lookup agrees with the Python dict. -/
def depsList : List Op → List (String × List String)
  | [] => []
  | e :: rest =>
    (if isC e then
      (let ds := (rest.filter (fun op => !(isC op))).map Op.tr
       if ds.isEmpty then [] else [(e.tr, ds)])
     else []) ++ depsList rest

/-- The body of the inner loop of is_in_ocsr (homework-8 lines 74-77) at one
position of an equivalent history: deps.get(tr, None) must be absent, empty
(Python falsiness) or a subset of the remaining suffix eq_h[i+1:]. -/
def checkAt (deps : List (String × List String)) (tr : String) (rest : List String) : Bool :=
  match deps.lookup tr with
  | none => true
  | some ds => ds.isEmpty || ds.all (fun d => decide (d ∈ rest))

/-- The inner check of is_in_ocsr (homework-8 lines 73-79) on one equivalent
history: at each position, the deps of that transaction (when present) must all
occur strictly later (eq_h[i+1:] is exactly the tail at that point); the
for-else returns True only when no position breaks. -/
def satAux (deps : List (String × List String)) : List String → Bool
  | [] => true
  | tr :: rest => checkAt deps tr rest && satAux deps rest

/-- is_in_ocsr of homework-8 (lines 62-80). -/
def is_in_ocsr (h : List Op) (eq : List (List String)) : Bool :=
  eq.any (fun eq_h => satAux (depsList (firstOps h)) eq_h)

/-- The commit order of is_in_cocsr (homework-8 line 84): the transactions of
the commit operations, in schedule order. -/
def commitOrder (h : List Op) : List String :=
  (h.filter (fun op => isC op)).map Op.tr

/-- is_in_cocsr of homework-8 (lines 83-85). -/
def is_in_cocsr (h : List Op) (eq : List (List String)) : Bool :=
  eq.any (fun eq_tr => decide (commitOrder h = eq_tr))

/-- The CSR verdict of the homework-8 driver (line 107): acyclicity of the
conflict graph. -/
def csrVerdict (h : List Op) : Bool :=
  isDAG (build_conflict_graph h).nodes (edgePairs (build_conflict_graph h).edges)

/-- The equivalent histories the driver enumerates when the schedule is in CSR
(homework-8 line 109). -/
def eqHistories (h : List Op) : List (List String) :=
  get_equivalent_histories (build_conflict_graph h)

/-- The OCSR verdict of the homework-8 driver (lines 107-124): OCSR is reported
only when CSR holds and is_in_ocsr accepts. -/
def ocsrVerdict (h : List Op) : Bool :=
  csrVerdict h && is_in_ocsr h (eqHistories h)

/-- The COCSR verdict of the homework-8 driver (lines 107-124): COCSR is
reported only when OCSR holds and is_in_cocsr accepts. -/
def cocsrVerdict (h : List Op) : Bool :=
  ocsrVerdict h && is_in_cocsr h (eqHistories h)

end HW8

namespace HW10

/-- Operation kinds of homework-10 xcsr.py: its parser pattern accepts
r, w, c and a. -/
inductive OpType where
  | r
  | w
  | c
  | a
deriving DecidableEq

/-- The Op dataclass of homework-10: op_type, tr, variable, revert (the source
field `variable` is called `var` here because `variable` is a Lean keyword).
Commits and aborts are parsed with var = "", revert defaults to False. -/
structure Op where
  op_type : OpType
  tr : String
  var : String
  revert : Bool
deriving DecidableEq

/-- Op.reverted_op of homework-10 (lines 34-35): the same operation with the
revert flag set. -/
def reverted_op (op : Op) : Op := ⟨op.op_type, op.tr, op.var, true⟩

/-- build_expanded_schedule of homework-10 (lines 38-47), with the reverse of
the already processed prefix as accumulator: non-abort operations are copied
through; an abort of transaction t at position i is replaced by the reverted
copies of t's writes in sch[i::-1] (the inclusive prefix, scanned backwards,
which is op :: revPast here) followed by a commit of t. -/
def expandAux : List Op → List Op → List Op
  | _, [] => []
  | revPast, op :: rest =>
    (if op.op_type == OpType.a then
      ((op :: revPast).filter (fun prev => prev.tr == op.tr && prev.op_type == OpType.w)).map
          reverted_op
        ++ [⟨OpType.c, op.tr, "", false⟩]
     else [op]) ++ expandAux (op :: revPast) rest

/-- build_expanded_schedule applied to a whole schedule. -/
def build_expanded_schedule (sch : List Op) : List Op := expandAux [] sch

/-- The inner loop of homework-10's build_conflict_graph (lines 60-69): a read
gets an edge from every earlier write on the same variable by a DIFFERENT
transaction, a write gets an edge from every earlier read or write on the same
variable by a different transaction; commits and aborts get none. -/
def edgesScan : List Op → List Op → List (CEdge Op)
  | _, [] => []
  | past, op :: rest =>
    (match op.op_type with
      | OpType.r =>
          (past.filter (fun p => p.tr != op.tr && p.op_type == OpType.w)).map
            (fun p => ⟨p.tr, op.tr, p, op⟩)
      | OpType.w =>
          (past.filter
              (fun p => p.tr != op.tr && (p.op_type == OpType.r || p.op_type == OpType.w))).map
            (fun p => ⟨p.tr, op.tr, p, op⟩)
      | _ => []) ++ edgesScan (past ++ [op]) rest

/-- The conflict graph of homework-10. -/
structure Graph where
  nodes : List String
  edges : List (CEdge Op)

/-- build_conflict_graph of homework-10 (lines 50-70). -/
def build_conflict_graph (sch : List Op) : Graph :=
  ⟨dedupFirst (sch.map Op.tr),
   (dedupFirst (sch.map Op.var)).flatMap
     (fun v => edgesScan [] (sch.filter (fun op => op.var == v)))⟩

/-- The CSR verdict of the homework-10 driver (line 91): acyclicity of the
conflict graph of the unexpanded schedule. -/
def csrVerdict (h : List Op) : Bool :=
  isDAG (build_conflict_graph h).nodes (edgePairs (build_conflict_graph h).edges)

/-- The XCSR verdict of the homework-10 driver (lines 91-100): XCSR is reported
exactly when the schedule is in CSR and the conflict graph of the expanded
schedule is also acyclic. -/
def xcsrVerdict (h : List Op) : Bool :=
  csrVerdict h &&
    isDAG (build_conflict_graph (build_expanded_schedule h)).nodes
      (edgePairs (build_conflict_graph (build_expanded_schedule h)).edges)

end HW10

namespace HW7

/-- Operation kinds of homework-7 csr.py: its parser pattern accepts exactly
r and w. -/
inductive OpType where
  | r
  | w
deriving DecidableEq

/-- The Op dataclass of homework-7 (the source field `variable` is called `var`
here because `variable` is a Lean keyword). -/
structure Op where
  op_type : OpType
  tr : String
  var : String
deriving DecidableEq

/-- The inner loop of homework-7's build_conflict_graph (lines 44-51): a read
gets an edge from every earlier write on the same variable (no transaction
comparison in the source), any other operation (here: a write) gets an edge
from every earlier operation of a different transaction. -/
def edgesScan : List Op → List Op → List (CEdge Op)
  | _, [] => []
  | past, op :: rest =>
    (match op.op_type with
      | OpType.r =>
          (past.filter (fun p => p.op_type == OpType.w)).map (fun p => ⟨p.tr, op.tr, p, op⟩)
      | OpType.w =>
          (past.filter (fun p => p.tr != op.tr)).map (fun p => ⟨p.tr, op.tr, p, op⟩))
      ++ edgesScan (past ++ [op]) rest

/-- The conflict graph of homework-7. -/
structure Graph where
  nodes : List String
  edges : List (CEdge Op)

/-- build_conflict_graph of homework-7 (lines 32-52). -/
def build_conflict_graph (sch : List Op) : Graph :=
  ⟨dedupFirst (sch.map Op.tr),
   (dedupFirst (sch.map Op.var)).flatMap
     (fun v => edgesScan [] (sch.filter (fun op => op.var == v)))⟩

end HW7

namespace HW8

/-- The index of the first operation satisfying p, if any (spec-side helper for
stating claim C4's dependency set directly over the schedule). -/
def firstIdx (p : Op → Bool) : List Op → Option Nat
  | [] => none
  | op :: rest => if p op then some 0 else (firstIdx p rest).map (fun n => n + 1)

/-- The operation is the Commit of transaction i. -/
def isCommitOf (i : String) (op : Op) : Bool :=
  op.op_type == OpType.c && op.tr == i

/-- The operation is a Read or a Write of transaction t. -/
def isRwOf (t : String) (op : Op) : Bool :=
  (op.op_type == OpType.r || op.op_type == OpType.w) && op.tr == t

/-- Claim C4's dependency relation, read directly off the schedule: t's first
Read/Write operation occurs strictly after i's Commit (the first commit of i)
in the schedule. -/
def specDepsRel (h : List Op) (i t : String) : Prop :=
  ∃ p q, firstIdx (isCommitOf i) h = some p ∧ firstIdx (isRwOf t) h = some q ∧ p < q

/-- t occurs strictly after i in the serial order σ. -/
def afterIn (σ : List String) (i t : String) : Prop :=
  ∃ l1 l2, σ = l1 ++ i :: l2 ∧ t ∈ l2

/-- Auxiliary relation on a reduced operation list: a commit-keyed entry for i
occurs, and an rw-keyed entry for t occurs strictly after it. -/
def foRel (fo : List Op) (i t : String) : Prop :=
  ∃ l1 e l2, fo = l1 ++ e :: l2 ∧ ocsrKey e = (true, i) ∧ ∃ x ∈ l2, ocsrKey x = (false, t)

end HW8

/-- Scenario 1 of the spec (claim C2): w0(x) w0(y) r1(x) r2(y) w2(x) w1(y) c0 c1 c2. -/
def sched1 : List HW8.Op :=
  [⟨.w, "0", "x"⟩, ⟨.w, "0", "y"⟩, ⟨.r, "1", "x"⟩, ⟨.r, "2", "y"⟩, ⟨.w, "2", "x"⟩,
   ⟨.w, "1", "y"⟩, ⟨.c, "0", ""⟩, ⟨.c, "1", ""⟩, ⟨.c, "2", ""⟩]

/-- Scenario 2 of the spec (claim C3): r1(x) w2(x) r1(y) w2(y). -/
def sched2 : List HW8.Op :=
  [⟨.r, "1", "x"⟩, ⟨.w, "2", "x"⟩, ⟨.r, "1", "y"⟩, ⟨.w, "2", "y"⟩]

/-- w1(x) r1(x): a transaction reading a variable it wrote (claim C1). -/
def schedLoop : List HW8.Op := [⟨.w, "1", "x"⟩, ⟨.r, "1", "x"⟩]

/-- w1(x) r1(x) as a homework-7 schedule (claim C1). -/
def schedLoop7 : List HW7.Op := [⟨.w, "1", "x"⟩, ⟨.r, "1", "x"⟩]

/-- c1 c1 w1(x): transaction 1 has two Commit operations (claim C9). -/
def schedDup : List HW8.Op := [⟨.c, "1", ""⟩, ⟨.c, "1", ""⟩, ⟨.w, "1", "x"⟩]

/-- r2(y) w1(y) c1 w3(z) w2(z) c3 c2: in CSR but not in OCSR, because 3 starts
only after 1 commits yet the only serial order is [3, 2, 1] (claim C7). -/
def schedOP : List HW8.Op :=
  [⟨.r, "2", "y"⟩, ⟨.w, "1", "y"⟩, ⟨.c, "1", ""⟩, ⟨.w, "3", "z"⟩, ⟨.w, "2", "z"⟩,
   ⟨.c, "3", ""⟩, ⟨.c, "2", ""⟩]

/-- r1(x) w2(x) c2 c1: in OCSR but not in COCSR, because the commit order
[2, 1] matches no serial order (claim C7). -/
def schedOC : List HW8.Op :=
  [⟨.r, "1", "x"⟩, ⟨.w, "2", "x"⟩, ⟨.c, "2", ""⟩, ⟨.c, "1", ""⟩]

/-- r1(x) c1: a serial committed schedule, in COCSR (claim C7 witness). -/
def schedAll : List HW8.Op := [⟨.r, "1", "x"⟩, ⟨.c, "1", ""⟩]

/-- r1(x): transaction 1 never commits (claim C10 witness). -/
def schedNoC : List HW8.Op := [⟨.r, "1", "x"⟩]


namespace HW8

/-- Every edge produced by the per-variable scan comes from a pair (prev, op)
with prev in the scanned prefix and op in the remaining list, carries their
transactions as endpoints, and matches one of the two source branches: a read
after a write, or a write after an operation of a different transaction. -/
lemma edgesScan_mem (rest : List Op) : ∀ (past : List Op) (e : CEdge Op),
    e ∈ edgesScan past rest →
      (e.prevOp ∈ past ∨ e.prevOp ∈ rest) ∧ e.curOp ∈ rest ∧
        e.src = e.prevOp.tr ∧ e.dst = e.curOp.tr ∧
        ((e.curOp.op_type = OpType.r ∧ e.prevOp.op_type = OpType.w) ∨
          (e.curOp.op_type = OpType.w ∧ e.prevOp.tr ≠ e.curOp.tr)) := by
  induction rest with
  | nil => intro past e he; simp [edgesScan] at he
  | cons op rest ih =>
    intro past e he
    rw [edgesScan] at he
    rcases List.mem_append.mp he with hnew | hrec
    · cases hop : op.op_type <;> simp only [hop] at hnew
      · obtain ⟨p, hp, hpe⟩ := List.mem_map.mp hnew
        obtain ⟨hpm, hpw⟩ := List.mem_filter.mp hp
        subst hpe
        refine ⟨Or.inl hpm, List.mem_cons_self _ _, rfl, rfl, Or.inl ⟨hop, ?_⟩⟩
        exact beq_iff_eq.mp hpw
      · obtain ⟨p, hp, hpe⟩ := List.mem_map.mp hnew
        obtain ⟨hpm, hpt⟩ := List.mem_filter.mp hp
        subst hpe
        refine ⟨Or.inl hpm, List.mem_cons_self _ _, rfl, rfl, Or.inr ⟨hop, ?_⟩⟩
        exact bne_iff_ne.mp hpt
      · simp at hnew
    · obtain ⟨hprev, hcur, hsrc, hdst, hbr⟩ := ih (past ++ [op]) e hrec
      refine ⟨?_, List.mem_cons_of_mem _ hcur, hsrc, hdst, hbr⟩
      rcases hprev with hp | hp
      · rcases List.mem_append.mp hp with hp | hp
        · exact Or.inl hp
        · exact Or.inr (by simp at hp; simp [hp])
      · exact Or.inr (List.mem_cons_of_mem _ hp)

/-- Edge endpoints of the homework-8 conflict graph: both operations belong to
the schedule, share a variable, and match one of the two source branches. -/
lemma build_mem (sch : List Op) (e : CEdge Op)
    (he : e ∈ (build_conflict_graph sch).edges) :
    e.prevOp ∈ sch ∧ e.curOp ∈ sch ∧ e.prevOp.var = e.curOp.var ∧
      e.src = e.prevOp.tr ∧ e.dst = e.curOp.tr ∧
      ((e.curOp.op_type = OpType.r ∧ e.prevOp.op_type = OpType.w) ∨
        (e.curOp.op_type = OpType.w ∧ e.prevOp.tr ≠ e.curOp.tr)) := by
  obtain ⟨v, hv, hev⟩ := List.mem_flatMap.mp he
  obtain ⟨hprev, hcur, hsrc, hdst, hbr⟩ := edgesScan_mem _ [] e hev
  rcases hprev with hp | hp
  · simp at hp
  · obtain ⟨hpm, hpv⟩ := List.mem_filter.mp hp
    obtain ⟨hcm, hcv⟩ := List.mem_filter.mp (hcur : e.curOp ∈ sch.filter (fun op => op.var == v))
    exact ⟨hpm, hcm, by rw [beq_iff_eq.mp hpv, beq_iff_eq.mp hcv], hsrc, hdst, hbr⟩

end HW8

namespace HW10

/-- Homework-10 analogue of the per-variable scan lemma: both branches require
differing transactions, a read pairs only with an earlier write, a write with
an earlier read or write. -/
lemma edgesScan_mem10 (rest : List Op) : ∀ (past : List Op) (e : CEdge Op),
    e ∈ edgesScan past rest →
      (e.prevOp ∈ past ∨ e.prevOp ∈ rest) ∧ e.curOp ∈ rest ∧
        e.src = e.prevOp.tr ∧ e.dst = e.curOp.tr ∧ e.prevOp.tr ≠ e.curOp.tr ∧
        ((e.curOp.op_type = OpType.r ∧ e.prevOp.op_type = OpType.w) ∨
          (e.curOp.op_type = OpType.w ∧
            (e.prevOp.op_type = OpType.r ∨ e.prevOp.op_type = OpType.w))) := by
  induction rest with
  | nil => intro past e he; simp [edgesScan] at he
  | cons op rest ih =>
    intro past e he
    rw [edgesScan] at he
    rcases List.mem_append.mp he with hnew | hrec
    · cases hop : op.op_type <;> simp only [hop] at hnew
      · obtain ⟨p, hp, hpe⟩ := List.mem_map.mp hnew
        obtain ⟨hpm, hpc⟩ := List.mem_filter.mp hp
        rw [Bool.and_eq_true] at hpc
        obtain ⟨hpt, hpw⟩ := hpc
        subst hpe
        exact ⟨Or.inl hpm, List.mem_cons_self _ _, rfl, rfl, bne_iff_ne.mp hpt,
          Or.inl ⟨hop, beq_iff_eq.mp hpw⟩⟩
      · obtain ⟨p, hp, hpe⟩ := List.mem_map.mp hnew
        obtain ⟨hpm, hpc⟩ := List.mem_filter.mp hp
        rw [Bool.and_eq_true] at hpc
        obtain ⟨hpt, hpw⟩ := hpc
        subst hpe
        refine ⟨Or.inl hpm, List.mem_cons_self _ _, rfl, rfl, bne_iff_ne.mp hpt,
          Or.inr ⟨hop, ?_⟩⟩
        rw [Bool.or_eq_true] at hpw
        rcases hpw with hr | hw
        · exact Or.inl (beq_iff_eq.mp hr)
        · exact Or.inr (beq_iff_eq.mp hw)
      · simp at hnew
      · simp at hnew
    · obtain ⟨hprev, hcur, hsrc, hdst, hne, hbr⟩ := ih (past ++ [op]) e hrec
      refine ⟨?_, List.mem_cons_of_mem _ hcur, hsrc, hdst, hne, hbr⟩
      rcases hprev with hp | hp
      · rcases List.mem_append.mp hp with hp | hp
        · exact Or.inl hp
        · exact Or.inr (by simp at hp; simp [hp])
      · exact Or.inr (List.mem_cons_of_mem _ hp)

/-- Edge endpoints of the homework-10 conflict graph. -/
lemma build_mem10 (sch : List Op) (e : CEdge Op)
    (he : e ∈ (build_conflict_graph sch).edges) :
    e.prevOp ∈ sch ∧ e.curOp ∈ sch ∧ e.prevOp.var = e.curOp.var ∧
      e.src = e.prevOp.tr ∧ e.dst = e.curOp.tr ∧ e.prevOp.tr ≠ e.curOp.tr ∧
      ((e.curOp.op_type = OpType.r ∧ e.prevOp.op_type = OpType.w) ∨
        (e.curOp.op_type = OpType.w ∧
          (e.prevOp.op_type = OpType.r ∨ e.prevOp.op_type = OpType.w))) := by
  obtain ⟨v, hv, hev⟩ := List.mem_flatMap.mp he
  obtain ⟨hprev, hcur, hsrc, hdst, hne, hbr⟩ := edgesScan_mem10 _ [] e hev
  rcases hprev with hp | hp
  · simp at hp
  · obtain ⟨hpm, hpv⟩ := List.mem_filter.mp hp
    obtain ⟨hcm, hcv⟩ := List.mem_filter.mp (hcur : e.curOp ∈ sch.filter (fun op => op.var == v))
    exact ⟨hpm, hcm, by rw [beq_iff_eq.mp hpv, beq_iff_eq.mp hcv], hsrc, hdst, hne, hbr⟩

/-- On an abort-free remainder the expander copies every operation through
unchanged, whatever the scanned prefix is. -/
lemma expandAux_id : ∀ (rest revPast : List Op),
    (∀ op ∈ rest, op.op_type ≠ OpType.a) → expandAux revPast rest = rest := by
  intro rest
  induction rest with
  | nil => intro revPast _; rfl
  | cons op rest ih =>
    intro revPast hna
    have hop : (op.op_type == OpType.a) = false :=
      beq_eq_false_iff_ne.mpr (hna op (List.mem_cons_self _ _))
    rw [expandAux, hop]
    simp only [Bool.false_eq_true, if_false, List.singleton_append, List.cons.injEq, true_and]
    exact ih (op :: revPast) (fun x hx => hna x (List.mem_cons_of_mem _ hx))

end HW10

/-- Every element of the node list appears in every enumerated topological
sort. -/
lemma allTopSortsAux_complete : ∀ (fuel : Nat) (nodes : List String)
    (edges : List (String × String)) (σ : List String),
    σ ∈ allTopSortsAux fuel nodes edges → ∀ t ∈ nodes, t ∈ σ := by
  intro fuel
  induction fuel with
  | zero =>
    intro nodes edges σ hσ t ht
    rw [allTopSortsAux] at hσ
    by_cases hne : nodes.isEmpty
    · rw [if_pos hne] at hσ
      rw [List.isEmpty_iff] at hne
      subst hne
      simp at ht
    · rw [if_neg hne] at hσ
      simp at hσ
  | succ fuel ih =>
    intro nodes edges σ hσ t ht
    rw [allTopSortsAux] at hσ
    by_cases hne : nodes.isEmpty
    · rw [if_pos hne] at hσ
      rw [List.isEmpty_iff] at hne
      subst hne
      simp at ht
    · rw [if_neg hne] at hσ
      obtain ⟨n, hn, hσ2⟩ := List.mem_flatMap.mp hσ
      obtain ⟨ord, hord, hσ3⟩ := List.mem_map.mp hσ2
      subst hσ3
      by_cases htn : t = n
      · subst htn
        exact List.mem_cons_self _ _
      · have htf : t ∈ nodes.filter (fun m => m != n) :=
          List.mem_filter.mpr ⟨ht, bne_iff_ne.mpr htn⟩
        exact List.mem_cons_of_mem _ (ih _ _ ord hord t htf)

/-- Deduplication keeps every element that is not among the seen keys. -/
lemma dedupFirstAux_mem : ∀ (l seen : List String) (x : String),
    x ∈ l → x ∉ seen → x ∈ dedupFirstAux seen l := by
  intro l
  induction l with
  | nil => intro seen x hx _; simp at hx
  | cons y ys ih =>
    intro seen x hx hns
    rw [dedupFirstAux]
    by_cases hy : y ∈ seen
    · rw [if_pos hy]
      rcases List.mem_cons.mp hx with rfl | hx2
      · exact absurd hy hns
      · exact ih seen x hx2 hns
    · rw [if_neg hy]
      rcases List.mem_cons.mp hx with rfl | hx2
      · exact List.mem_cons_self _ _
      · by_cases hxy : x = y
        · subst hxy
          exact List.mem_cons_self _ _
        · refine List.mem_cons_of_mem _ (ih _ x hx2 ?_)
          intro hc
          rcases List.mem_cons.mp hc with h1 | h2
          · exact hxy h1
          · exact hns h2

namespace HW8

/-- Every transaction in the commit order occurs in the schedule. -/
lemma commitOrder_subset (h : List Op) : ∀ t ∈ commitOrder h, t ∈ h.map Op.tr := by
  intro t ht
  obtain ⟨op, hop, rfl⟩ := List.mem_map.mp ht
  exact List.mem_map.mpr ⟨op, (List.mem_filter.mp hop).1, rfl⟩

end HW8

/-- C1: the homework-7/homework-8 build_conflict_graph DOES create the
self-loop 1 -> 1 on the schedule w1(x) r1(x) (their read branch never compares
transactions), making a trivially serial schedule come out cyclic, while the
homework-10 variant compares transactions in both branches and never creates a
self-loop.  This refutes the claim for homework-7/8 and confirms it for
homework-10. -/
theorem read_own_write_self_loop :
    (("1", "1") ∈ edgePairs (HW8.build_conflict_graph schedLoop).edges) ∧
    (("1", "1") ∈ edgePairs (HW7.build_conflict_graph schedLoop7).edges) ∧
    HW8.csrVerdict schedLoop = false ∧
    (∀ sch : List HW10.Op, ∀ e ∈ (HW10.build_conflict_graph sch).edges, e.src ≠ e.dst) := by
  refine ⟨by decide, by decide, by decide, ?_⟩
  intro sch e he
  obtain ⟨-, -, -, hsrc, hdst, hne, -⟩ := HW10.build_mem10 sch e he
  rw [hsrc, hdst]
  exact hne

/-- C1 witness: the homework-10 no-self-loop part applied to the concrete
schedule r1(x) w2(x), whose conflict graph has the edge 1 -> 2. -/
theorem read_own_write_self_loop_witness :
    (⟨"1", "2", ⟨HW10.OpType.r, "1", "x", false⟩, ⟨HW10.OpType.w, "2", "x", false⟩⟩ : CEdge HW10.Op)
        ∈ (HW10.build_conflict_graph
            [⟨HW10.OpType.r, "1", "x", false⟩, ⟨HW10.OpType.w, "2", "x", false⟩]).edges ∧
      ("1" : String) ≠ "2" := by
  refine ⟨by decide, ?_⟩
  exact read_own_write_self_loop.2.2.2
    [⟨HW10.OpType.r, "1", "x", false⟩, ⟨HW10.OpType.w, "2", "x", false⟩]
    ⟨"1", "2", ⟨HW10.OpType.r, "1", "x", false⟩, ⟨HW10.OpType.w, "2", "x", false⟩⟩ (by decide)

/-- C2 counterexample: on Scenario 1 the analysis does NOT report CSR true
with [0, 1, 2] among the equivalent orders; the verdict is CSR false. -/
theorem scenario1_claim_false :
    ¬ (HW8.csrVerdict sched1 = true ∧ ["0", "1", "2"] ∈ HW8.eqHistories sched1) := by
  decide

/-- C2 amended: on Scenario 1 the conflict graph contains both the edge 1 -> 2
(from r1(x) before w2(x)) and the edge 2 -> 1 (from r2(y) before w1(y)), a
2-cycle, so the schedule is reported not in CSR and no equivalent serial
orders are produced. -/
theorem scenario1_not_csr :
    (("1", "2") ∈ edgePairs (HW8.build_conflict_graph sched1).edges) ∧
    (("2", "1") ∈ edgePairs (HW8.build_conflict_graph sched1).edges) ∧
    HW8.csrVerdict sched1 = false ∧ HW8.eqHistories sched1 = [] := by
  decide

/-- C3 counterexample: on Scenario 2 the conflict graph does NOT contain the
edge 2 -> 1, there is no 2-cycle, and the schedule is NOT reported outside
CSR. -/
theorem scenario2_claim_false :
    ¬ ((("1", "2") ∈ edgePairs (HW8.build_conflict_graph sched2).edges) ∧
       (("2", "1") ∈ edgePairs (HW8.build_conflict_graph sched2).edges) ∧
       HW8.csrVerdict sched2 = false) := by
  decide

/-- C3 amended: on Scenario 2 both conflicts point from transaction 1 to
transaction 2 (r1(x) before w2(x) and r1(y) before w2(y)), producing the edge
1 -> 2 and no edge 2 -> 1; the graph is acyclic, CSR is reported true and the
unique equivalent order is [1, 2]. -/
theorem scenario2_csr_true :
    (("1", "2") ∈ edgePairs (HW8.build_conflict_graph sched2).edges) ∧
    (("2", "1") ∉ edgePairs (HW8.build_conflict_graph sched2).edges) ∧
    HW8.csrVerdict sched2 = true ∧ HW8.eqHistories sched2 = [["1", "2"]] := by
  decide

/-- C5: is_in_cocsr returns true exactly when the sequence of transaction
identifiers of the Commit operations, in schedule order, equals one of the
enumerated serial orders. -/
theorem cocsr_iff_commit_order_enumerated (h : List HW8.Op) (eq : List (List String)) :
    HW8.is_in_cocsr h eq = true ↔ ∃ σ ∈ eq, HW8.commitOrder h = σ := by
  rw [HW8.is_in_cocsr, List.any_eq_true]
  constructor
  · rintro ⟨σ, hσ, hd⟩
    exact ⟨σ, hσ, of_decide_eq_true hd⟩
  · rintro ⟨σ, hσ, hd⟩
    exact ⟨σ, hσ, decide_eq_true hd⟩

/-- C6: on an abort-free schedule build_expanded_schedule is the identity, and
therefore the XCSR verdict of the homework-10 driver coincides with its CSR
verdict. -/
theorem no_abort_expansion_identity (sch : List HW10.Op)
    (ha : ∀ op ∈ sch, op.op_type ≠ HW10.OpType.a) :
    HW10.build_expanded_schedule sch = sch ∧ HW10.xcsrVerdict sch = HW10.csrVerdict sch := by
  have hid : HW10.build_expanded_schedule sch = sch := HW10.expandAux_id sch [] ha
  refine ⟨hid, ?_⟩
  unfold HW10.xcsrVerdict
  rw [hid]
  exact Bool.and_self _

/-- C6 witness: on the abort-free schedule r1(x) w2(x) c1 c2 the expander is
the identity and XCSR = CSR = true. -/
theorem no_abort_expansion_identity_witness :
    HW10.build_expanded_schedule
        [⟨HW10.OpType.r, "1", "x", false⟩, ⟨HW10.OpType.w, "2", "x", false⟩,
         ⟨HW10.OpType.c, "1", "", false⟩, ⟨HW10.OpType.c, "2", "", false⟩] =
      [⟨HW10.OpType.r, "1", "x", false⟩, ⟨HW10.OpType.w, "2", "x", false⟩,
       ⟨HW10.OpType.c, "1", "", false⟩, ⟨HW10.OpType.c, "2", "", false⟩] ∧
    HW10.xcsrVerdict
        [⟨HW10.OpType.r, "1", "x", false⟩, ⟨HW10.OpType.w, "2", "x", false⟩,
         ⟨HW10.OpType.c, "1", "", false⟩, ⟨HW10.OpType.c, "2", "", false⟩] =
      HW10.csrVerdict
        [⟨HW10.OpType.r, "1", "x", false⟩, ⟨HW10.OpType.w, "2", "x", false⟩,
         ⟨HW10.OpType.c, "1", "", false⟩, ⟨HW10.OpType.c, "2", "", false⟩] :=
  no_abort_expansion_identity _ (by decide)

/-- C7: the reported verdicts form the implication chain COCSR -> OCSR -> CSR
for every schedule (by the guard structure of the driver), and neither reverse
implication holds: schedOP is in CSR but not OCSR, schedOC is in OCSR but not
COCSR. -/
theorem verdict_implication_chain :
    (∀ h : List HW8.Op,
        (HW8.cocsrVerdict h = true → HW8.ocsrVerdict h = true) ∧
        (HW8.ocsrVerdict h = true → HW8.csrVerdict h = true)) ∧
    (HW8.csrVerdict schedOP = true ∧ HW8.ocsrVerdict schedOP = false) ∧
    (HW8.ocsrVerdict schedOC = true ∧ HW8.cocsrVerdict schedOC = false) := by
  refine ⟨?_, ⟨by decide, by decide⟩, ⟨by decide, by decide⟩⟩
  intro h
  constructor
  · intro hc
    unfold HW8.cocsrVerdict at hc
    rw [Bool.and_eq_true] at hc
    exact hc.1
  · intro ho
    unfold HW8.ocsrVerdict at ho
    rw [Bool.and_eq_true] at ho
    exact ho.1

/-- C7 witness: the chain applied to the concrete schedule r1(x) c1, which is
reported in COCSR, hence in OCSR, hence in CSR. -/
theorem verdict_implication_chain_witness :
    HW8.cocsrVerdict schedAll = true ∧ HW8.ocsrVerdict schedAll = true ∧
      HW8.csrVerdict schedAll = true :=
  ⟨by decide, (verdict_implication_chain.1 schedAll).1 (by decide),
    (verdict_implication_chain.1 schedAll).2
      ((verdict_implication_chain.1 schedAll).1 (by decide))⟩

/-- C8: every conflict-graph edge of homework-8 and homework-10 is generated
by a pair of operations of which at least one is a Write; a Read-Read pair
never produces an edge. -/
theorem every_edge_involves_write :
    (∀ sch : List HW8.Op, ∀ e ∈ (HW8.build_conflict_graph sch).edges,
        e.prevOp.op_type = HW8.OpType.w ∨ e.curOp.op_type = HW8.OpType.w) ∧
    (∀ sch : List HW10.Op, ∀ e ∈ (HW10.build_conflict_graph sch).edges,
        e.prevOp.op_type = HW10.OpType.w ∨ e.curOp.op_type = HW10.OpType.w) := by
  constructor
  · intro sch e he
    obtain ⟨-, -, -, -, -, hbr⟩ := HW8.build_mem sch e he
    rcases hbr with ⟨-, hw⟩ | ⟨hw, -⟩
    · exact Or.inl hw
    · exact Or.inr hw
  · intro sch e he
    obtain ⟨-, -, -, -, -, -, hbr⟩ := HW10.build_mem10 sch e he
    rcases hbr with ⟨-, hw⟩ | ⟨hw, -⟩
    · exact Or.inl hw
    · exact Or.inr hw

/-- C8 witness: the write-write edge of the schedule w1(x) w2(x). -/
theorem every_edge_involves_write_witness :
    (⟨"1", "2", ⟨HW8.OpType.w, "1", "x"⟩, ⟨HW8.OpType.w, "2", "x"⟩⟩ : CEdge HW8.Op)
        ∈ (HW8.build_conflict_graph [⟨HW8.OpType.w, "1", "x"⟩, ⟨HW8.OpType.w, "2", "x"⟩]).edges ∧
      ((⟨HW8.OpType.w, "1", "x"⟩ : HW8.Op).op_type = HW8.OpType.w ∨
        (⟨HW8.OpType.w, "2", "x"⟩ : HW8.Op).op_type = HW8.OpType.w) := by
  refine ⟨by decide, ?_⟩
  exact every_edge_involves_write.1
    [⟨HW8.OpType.w, "1", "x"⟩, ⟨HW8.OpType.w, "2", "x"⟩]
    ⟨"1", "2", ⟨HW8.OpType.w, "1", "x"⟩, ⟨HW8.OpType.w, "2", "x"⟩⟩ (by decide)

/-- C9 counterexample: no MalformedScheduleError exists anywhere in the source
and build_conflict_graph performs no validation; on the schedule c1 c1 w1(x),
in which transaction 1 has two Commit operations, the graph is built (with no
edges) and the driver reports a CSR verdict instead of failing. -/
theorem duplicate_commit_still_classified :
    (HW8.build_conflict_graph schedDup).edges = [] ∧
    (HW8.build_conflict_graph schedDup).nodes = ["1"] ∧
    HW8.csrVerdict schedDup = true := by
  decide

/-- C9 amended: the core never rejects an input; Commit operations (duplicated
or not) are never an endpoint of any conflict-graph edge, provided every
Read/Write operation names a nonempty variable and commits name none, as the
parser guarantees, so a verdict is always produced. -/
theorem commits_never_edge_endpoints (sch : List HW8.Op)
    (hv : ∀ op ∈ sch, (op.op_type = HW8.OpType.c → op.var = "") ∧
      (op.op_type ≠ HW8.OpType.c → op.var ≠ "")) :
    ∀ e ∈ (HW8.build_conflict_graph sch).edges,
      e.prevOp.op_type ≠ HW8.OpType.c ∧ e.curOp.op_type ≠ HW8.OpType.c := by
  intro e he
  obtain ⟨hpm, hcm, hvar, -, -, hbr⟩ := HW8.build_mem sch e he
  have hcur : e.curOp.op_type ≠ HW8.OpType.c := by
    rcases hbr with ⟨hr, -⟩ | ⟨hw, -⟩
    · rw [hr]; intro hc; cases hc
    · rw [hw]; intro hc; cases hc
  have hcv : e.curOp.var ≠ "" := (hv e.curOp hcm).2 hcur
  refine ⟨?_, hcur⟩
  intro hc
  exact hcv (hvar ▸ (hv e.prevOp hpm).1 hc)

/-- C9 amended witness: applied to the duplicate-commit schedule c1 c1 w1(x)
(vacuously, as its graph has no edges). -/
theorem commits_never_edge_endpoints_witness :
    HW8.csrVerdict schedDup = true ∧
      (∀ e ∈ (HW8.build_conflict_graph schedDup).edges,
        e.prevOp.op_type ≠ HW8.OpType.c ∧ e.curOp.op_type ≠ HW8.OpType.c) :=
  ⟨by decide, commits_never_edge_endpoints schedDup (by decide)⟩

/-- C10: when some transaction of the schedule never commits, the commit order
misses it while every enumerated serial order contains every transaction, so
is_in_cocsr is false. -/
theorem missing_commit_not_cocsr (h : List HW8.Op)
    (hne : ¬ ∀ t : String, t ∈ HW8.commitOrder h ↔ t ∈ h.map HW8.Op.tr) :
    HW8.is_in_cocsr h (HW8.eqHistories h) = false := by
  obtain ⟨t, ht⟩ := not_forall.mp hne
  have hsub := HW8.commitOrder_subset h
  have htm : t ∈ h.map HW8.Op.tr ∧ t ∉ HW8.commitOrder h := by
    by_cases hc : t ∈ HW8.commitOrder h
    · exact absurd (iff_of_true hc (hsub t hc)) ht
    · by_cases hm : t ∈ h.map HW8.Op.tr
      · exact ⟨hm, hc⟩
      · exact absurd (iff_of_false hc hm) ht
  cases hcv : HW8.is_in_cocsr h (HW8.eqHistories h) with
  | false => rfl
  | true =>
    exfalso
    unfold HW8.is_in_cocsr at hcv
    obtain ⟨σ, hσ, heq⟩ := List.any_eq_true.mp hcv
    have heq2 : HW8.commitOrder h = σ := of_decide_eq_true heq
    have htn : t ∈ (HW8.build_conflict_graph h).nodes :=
      dedupFirstAux_mem _ [] t htm.1 (by simp)
    have htσ : t ∈ σ := allTopSortsAux_complete _ _ _ σ hσ t htn
    rw [← heq2] at htσ
    exact htm.2 htσ

/-- C10 witness: on the schedule r1(x), transaction 1 never commits and
is_in_cocsr is false. -/
theorem missing_commit_not_cocsr_witness :
    HW8.is_in_cocsr schedNoC (HW8.eqHistories schedNoC) = false := by
  apply missing_commit_not_cocsr
  intro hall
  have h1 : ("1" : String) ∈ HW8.commitOrder schedNoC := (hall ("1")).mpr (by decide)
  exact absurd h1 (by decide)

namespace HW8

/-- firstIdx finds an index exactly when some element satisfies the
predicate. -/
lemma firstIdx_isSome_iff (p : Op → Bool) : ∀ l : List Op,
    (∃ q, firstIdx p l = some q) ↔ ∃ x ∈ l, p x = true := by
  intro l
  induction l with
  | nil => simp [firstIdx]
  | cons op rest ih =>
    rw [firstIdx]
    by_cases hp : p op = true
    · rw [if_pos hp]
      constructor
      · intro _
        exact ⟨op, List.mem_cons_self _ _, hp⟩
      · intro _
        exact ⟨0, rfl⟩
    · rw [if_neg hp]
      constructor
      · rintro ⟨q, hq⟩
        obtain ⟨q2, hq2, -⟩ := Option.map_eq_some'.mp hq
        obtain ⟨x, hx, hpx⟩ := ih.mp ⟨q2, hq2⟩
        exact ⟨x, List.mem_cons_of_mem _ hx, hpx⟩
      · rintro ⟨x, hx, hpx⟩
        rcases List.mem_cons.mp hx with rfl | hx2
        · exact absurd hpx hp
        · obtain ⟨q, hq⟩ := ih.mpr ⟨x, hx2, hpx⟩
          exact ⟨q + 1, by rw [hq]; rfl⟩

/-- The commit key (true, i) identifies exactly the Commit operations of i. -/
lemma ocsrKey_cKey_iff (i : String) (op : Op) :
    ocsrKey op = (true, i) ↔ isCommitOf i op = true := by
  rw [ocsrKey, isCommitOf, Bool.and_eq_true, Prod.mk.injEq]
  exact and_congr Iff.rfl beq_iff_eq.symm

/-- The rw key (false, t) identifies exactly the Read/Write operations of t. -/
lemma ocsrKey_rwKey_iff (t : String) (op : Op) :
    ocsrKey op = (false, t) ↔ isRwOf t op = true := by
  rw [ocsrKey, isRwOf, Bool.and_eq_true, Prod.mk.injEq]
  refine and_congr ?_ beq_iff_eq.symm
  constructor
  · intro h1
    rw [Bool.or_eq_true]
    have hne : op.op_type ≠ OpType.c := beq_eq_false_iff_ne.mp h1
    cases hop : op.op_type
    · exact Or.inl rfl
    · exact Or.inr rfl
    · exact absurd hop hne
  · intro h2
    rw [Bool.or_eq_true] at h2
    apply beq_eq_false_iff_ne.mpr
    rcases h2 with hr | hw
    · rw [beq_iff_eq.mp hr]
      decide
    · rw [beq_iff_eq.mp hw]
      decide

/-- No element surviving unique_everseen carries a key that was already
seen. -/
lemma uniq_keys_not_seen : ∀ (l : List Op) (seen : List (Bool × String)) (k : Bool × String),
    k ∈ seen → ∀ x ∈ uniqueEverseenAux seen l, ocsrKey x ≠ k := by
  intro l
  induction l with
  | nil => intro seen k _ x hx; simp [uniqueEverseenAux] at hx
  | cons op rest ih =>
    intro seen k hk x hx
    rw [uniqueEverseenAux] at hx
    by_cases hs : ocsrKey op ∈ seen
    · rw [if_pos hs] at hx
      exact ih seen k hk x hx
    · rw [if_neg hs] at hx
      rcases List.mem_cons.mp hx with rfl | hx2
      · intro hck
        rw [hck] at hs
        exact hs hk
      · exact ih _ k (List.mem_cons_of_mem _ hk) x hx2

/-- unique_everseen preserves which unseen keys occur in the list. -/
lemma uniq_key_mem_iff : ∀ (l : List Op) (seen : List (Bool × String)) (k : Bool × String),
    k ∉ seen →
    ((∃ x ∈ uniqueEverseenAux seen l, ocsrKey x = k) ↔ ∃ x ∈ l, ocsrKey x = k) := by
  intro l
  induction l with
  | nil => intro seen k _; simp [uniqueEverseenAux]
  | cons op rest ih =>
    intro seen k hk
    rw [uniqueEverseenAux]
    by_cases hs : ocsrKey op ∈ seen
    · rw [if_pos hs, ih seen k hk]
      constructor
      · rintro ⟨x, hx, hkx⟩
        exact ⟨x, List.mem_cons_of_mem _ hx, hkx⟩
      · rintro ⟨x, hx, hkx⟩
        rcases List.mem_cons.mp hx with rfl | hx2
        · rw [hkx] at hs
          exact absurd hs hk
        · exact ⟨x, hx2, hkx⟩
    · rw [if_neg hs]
      by_cases hko : ocsrKey op = k
      · constructor
        · rintro -
          exact ⟨op, List.mem_cons_self _ _, hko⟩
        · rintro -
          exact ⟨op, List.mem_cons_self _ _, hko⟩
      · have hk2 : k ∉ ocsrKey op :: seen := by
          intro hc
          rcases List.mem_cons.mp hc with h1 | h2
          · exact hko h1.symm
          · exact hk h2
        constructor
        · rintro ⟨x, hx, hkx⟩
          rcases List.mem_cons.mp hx with rfl | hx2
          · exact absurd hkx hko
          · obtain ⟨y, hy, hky⟩ := (ih _ k hk2).mp ⟨x, hx2, hkx⟩
            exact ⟨y, List.mem_cons_of_mem _ hy, hky⟩
        · rintro ⟨x, hx, hkx⟩
          rcases List.mem_cons.mp hx with rfl | hx2
          · exact absurd hkx hko
          · obtain ⟨y, hy, hky⟩ := (ih _ k hk2).mpr ⟨x, hx2, hkx⟩
            exact ⟨y, List.mem_cons_of_mem _ hy, hky⟩

/-- The keys of the unique_everseen output are pairwise distinct. -/
lemma uniq_keys_nodup : ∀ (l : List Op) (seen : List (Bool × String)),
    ((uniqueEverseenAux seen l).map ocsrKey).Nodup := by
  intro l
  induction l with
  | nil => intro seen; simp [uniqueEverseenAux]
  | cons op rest ih =>
    intro seen
    rw [uniqueEverseenAux]
    by_cases hs : ocsrKey op ∈ seen
    · rw [if_pos hs]
      exact ih seen
    · rw [if_neg hs]
      rw [List.map_cons, List.nodup_cons]
      refine ⟨?_, ih _⟩
      intro hc
      obtain ⟨x, hx, hkx⟩ := List.mem_map.mp hc
      exact uniq_keys_not_seen rest _ _ (List.mem_cons_self _ _) x hx hkx

/-- The empty list satisfies no foRel. -/
lemma foRel_nil (i t : String) : ¬ foRel [] i t := by
  rintro ⟨l1, e, l2, heq, -, -⟩
  exact List.cons_ne_nil e l2 (List.append_eq_nil.mp heq.symm).2

/-- Unfolding foRel over a cons cell. -/
lemma foRel_cons (a : Op) (l : List Op) (i t : String) :
    foRel (a :: l) i t ↔
      (ocsrKey a = (true, i) ∧ ∃ x ∈ l, ocsrKey x = (false, t)) ∨ foRel l i t := by
  constructor
  · rintro ⟨l1, e, l2, heq, hke, hx⟩
    cases l1 with
    | nil =>
      rw [List.nil_append] at heq
      injection heq with h1 h2
      subst h1
      subst h2
      exact Or.inl ⟨hke, hx⟩
    | cons b l1b =>
      rw [List.cons_append] at heq
      injection heq with h1 h2
      exact Or.inr ⟨l1b, e, l2, h2, hke, hx⟩
  · rintro (⟨hka, hx⟩ | ⟨l1, e, l2, heq, hke, hx⟩)
    · exact ⟨[], a, l, rfl, hka, hx⟩
    · exact ⟨a :: l1, e, l2, by rw [heq, List.cons_append], hke, hx⟩

/-- foRel exhibits a commit-keyed element. -/
lemma foRel_exists_c {l : List Op} {i t : String} (h : foRel l i t) :
    ∃ x ∈ l, ocsrKey x = (true, i) := by
  obtain ⟨l1, e, l2, heq, hke, -⟩ := h
  exact ⟨e, by rw [heq]; exact List.mem_append_right _ (List.mem_cons_self _ _), hke⟩

/-- foRel exhibits an rw-keyed element. -/
lemma foRel_exists_rw {l : List Op} {i t : String} (h : foRel l i t) :
    ∃ x ∈ l, ocsrKey x = (false, t) := by
  obtain ⟨l1, e, l2, heq, -, x, hx, hkx⟩ := h
  exact ⟨x, by rw [heq]; exact List.mem_append_right _ (List.mem_cons_of_mem _ hx), hkx⟩

/-- Dropping a head operation that is neither i's commit nor a read/write of t
shifts both first indices by one and preserves the dependency relation. -/
lemma specDepsRel_cons_shift (op : Op) (rest : List Op) (i t : String)
    (hci : ocsrKey op ≠ (true, i)) (hrt : ocsrKey op ≠ (false, t)) :
    specDepsRel (op :: rest) i t ↔ specDepsRel rest i t := by
  have h1 : isCommitOf i op = false := by
    cases hc : isCommitOf i op
    · rfl
    · exact absurd ((ocsrKey_cKey_iff i op).mpr hc) hci
  have h2 : isRwOf t op = false := by
    cases hc : isRwOf t op
    · rfl
    · exact absurd ((ocsrKey_rwKey_iff t op).mpr hc) hrt
  rw [specDepsRel, specDepsRel]
  constructor
  · rintro ⟨p, q, hp, hq, hpq⟩
    rw [firstIdx, h1, if_neg Bool.false_ne_true] at hp
    rw [firstIdx, h2, if_neg Bool.false_ne_true] at hq
    obtain ⟨p2, hp2, hp21⟩ := Option.map_eq_some'.mp hp
    obtain ⟨q2, hq2, hq21⟩ := Option.map_eq_some'.mp hq
    exact ⟨p2, q2, hp2, hq2, by omega⟩
  · rintro ⟨p, q, hp, hq, hpq⟩
    refine ⟨p + 1, q + 1, ?_, ?_, by omega⟩
    · rw [firstIdx, h1, if_neg Bool.false_ne_true, hp]
      rfl
    · rw [firstIdx, h2, if_neg Bool.false_ne_true, hq]
      rfl

/-- Main correspondence: after unique_everseen, a commit entry of i followed by
an rw entry of t exists exactly when t's first Read/Write comes after i's first
Commit in the original list, provided neither key was pre-seen. -/
lemma foRel_uniq_iff : ∀ (l : List Op) (seen : List (Bool × String)) (i t : String),
    (true, i) ∉ seen → (false, t) ∉ seen →
    (foRel (uniqueEverseenAux seen l) i t ↔ specDepsRel l i t) := by
  intro l
  induction l with
  | nil =>
    intro seen i t hi ht
    rw [uniqueEverseenAux]
    constructor
    · intro h
      exact absurd h (foRel_nil i t)
    · rintro ⟨p, q, hp, -, -⟩
      rw [firstIdx] at hp
      exact Option.noConfusion hp
  | cons op rest ih =>
    intro seen i t hi ht
    rw [uniqueEverseenAux]
    by_cases hs : ocsrKey op ∈ seen
    · rw [if_pos hs]
      have hci : ocsrKey op ≠ (true, i) := fun hc => hi (hc ▸ hs)
      have hrt : ocsrKey op ≠ (false, t) := fun hc => ht (hc ▸ hs)
      rw [ih seen i t hi ht]
      exact (specDepsRel_cons_shift op rest i t hci hrt).symm
    · rw [if_neg hs, foRel_cons]
      by_cases hko : ocsrKey op = (true, i)
      · have hd2 : ¬ foRel (uniqueEverseenAux (ocsrKey op :: seen) rest) i t := by
          intro hfo
          obtain ⟨x, hx, hkx⟩ := foRel_exists_c hfo
          refine uniq_keys_not_seen rest _ ((true, i)) ?_ x hx hkx
          rw [← hko]
          exact List.mem_cons_self _ _
        have hop_rw : isRwOf t op = false := by
          cases hc : isRwOf t op
          · rfl
          · have h2 := (ocsrKey_rwKey_iff t op).mpr hc
            rw [hko] at h2
            exact absurd h2 (by simp)
        have hmem : (∃ x ∈ uniqueEverseenAux (ocsrKey op :: seen) rest,
            ocsrKey x = (false, t)) ↔ ∃ x ∈ rest, ocsrKey x = (false, t) := by
          apply uniq_key_mem_iff
          intro hc
          rcases List.mem_cons.mp hc with h1 | h2
          · rw [hko] at h1
            exact absurd h1 (by simp)
          · exact ht h2
        constructor
        · rintro (⟨-, hx⟩ | hfo)
          · obtain ⟨x, hx2, hkx⟩ := hmem.mp hx
            obtain ⟨q2, hq2⟩ := (firstIdx_isSome_iff (isRwOf t) rest).mpr
              ⟨x, hx2, (ocsrKey_rwKey_iff t x).mp hkx⟩
            refine ⟨0, q2 + 1, ?_, ?_, Nat.succ_pos q2⟩
            · rw [firstIdx, if_pos ((ocsrKey_cKey_iff i op).mp hko)]
            · rw [firstIdx, hop_rw, if_neg Bool.false_ne_true, hq2]
              rfl
          · exact absurd hfo hd2
        · rintro ⟨p, q, hp, hq, hpq⟩
          left
          refine ⟨hko, ?_⟩
          rw [firstIdx, hop_rw, if_neg Bool.false_ne_true] at hq
          obtain ⟨q2, hq2, -⟩ := Option.map_eq_some'.mp hq
          obtain ⟨x, hx2, hpx⟩ := (firstIdx_isSome_iff _ _).mp ⟨q2, hq2⟩
          exact hmem.mpr ⟨x, hx2, (ocsrKey_rwKey_iff t x).mpr hpx⟩
      · by_cases hkt : ocsrKey op = (false, t)
        · have hd2 : ¬ foRel (uniqueEverseenAux (ocsrKey op :: seen) rest) i t := by
            intro hfo
            obtain ⟨x, hx, hkx⟩ := foRel_exists_rw hfo
            refine uniq_keys_not_seen rest _ ((false, t)) ?_ x hx hkx
            rw [← hkt]
            exact List.mem_cons_self _ _
          constructor
          · rintro (⟨hc, -⟩ | hfo)
            · exact absurd (hkt.symm.trans hc) (by simp)
            · exact absurd hfo hd2
          · rintro ⟨p, q, hp, hq, hpq⟩
            exfalso
            have hop_rw : isRwOf t op = true := (ocsrKey_rwKey_iff t op).mp hkt
            rw [firstIdx, if_pos hop_rw] at hq
            injection hq with hq0
            have hop_c : isCommitOf i op = false := by
              cases hc2 : isCommitOf i op
              · rfl
              · exact absurd ((ocsrKey_cKey_iff i op).mpr hc2) hko
            rw [firstIdx, hop_c, if_neg Bool.false_ne_true] at hp
            obtain ⟨p2, -, hp2⟩ := Option.map_eq_some'.mp hp
            omega
        · have hi2 : (true, i) ∉ ocsrKey op :: seen := by
            intro hc
            rcases List.mem_cons.mp hc with h1 | h2
            · exact hko h1.symm
            · exact hi h2
          have ht2 : (false, t) ∉ ocsrKey op :: seen := by
            intro hc
            rcases List.mem_cons.mp hc with h1 | h2
            · exact hkt h1.symm
            · exact ht h2
          rw [ih _ i t hi2 ht2, specDepsRel_cons_shift op rest i t hko hkt]
          constructor
          · rintro (⟨hc, -⟩ | h2)
            · exact absurd hc hko
            · exact h2
          · intro h2
            exact Or.inr h2

end HW8

namespace HW8

/-- Membership in a deps value: the transactions of the non-commit entries. -/
lemma mem_depsVal_iff (rest : List Op) (t : String) :
    t ∈ (rest.filter (fun op => !(isC op))).map Op.tr ↔
      ∃ x ∈ rest, ocsrKey x = (false, t) := by
  rw [List.mem_map]
  constructor
  · rintro ⟨x, hx, rfl⟩
    obtain ⟨hxm, hxc⟩ := List.mem_filter.mp hx
    rw [Bool.not_eq_true'] at hxc
    refine ⟨x, hxm, ?_⟩
    rw [ocsrKey, hxc]
  · rintro ⟨x, hx, hkx⟩
    rw [ocsrKey, Prod.mk.injEq] at hkx
    refine ⟨x, List.mem_filter.mpr ⟨hx, ?_⟩, hkx.2⟩
    rw [Bool.not_eq_true', hkx.1]

/-- Deps values are never stored empty. -/
lemma depsList_lookup_ne_nil : ∀ (fo : List Op) (i : String) (ds : List String),
    (depsList fo).lookup i = some ds → ds ≠ [] := by
  intro fo
  induction fo with
  | nil =>
    intro i ds h
    rw [depsList] at h
    exact Option.noConfusion h
  | cons e rest ih =>
    intro i ds h
    rw [depsList] at h
    by_cases hc : isC e = true
    · rw [if_pos hc] at h
      by_cases hds : ((rest.filter (fun op => !(isC op))).map Op.tr).isEmpty = true
      · rw [if_pos hds, List.nil_append] at h
        exact ih i ds h
      · rw [if_neg hds, List.singleton_append, List.lookup] at h
        by_cases hie : (i == e.tr) = true
        · rw [hie] at h
          injection h with h2
          rw [← h2]
          intro hnil
          rw [hnil] at hds
          exact hds rfl
        · rw [Bool.not_eq_true] at hie
          rw [hie] at h
          exact ih i ds h
    · rw [if_neg hc, List.nil_append] at h
      exact ih i ds h

/-- Looking a transaction up in the deps of a key-nodup reduced list finds t
exactly when the list has a commit entry of i followed by an rw entry of t. -/
lemma depsList_lookup_iff : ∀ (fo : List Op), ((fo.map ocsrKey).Nodup) → ∀ (i t : String),
    ((∃ ds, (depsList fo).lookup i = some ds ∧ t ∈ ds) ↔ foRel fo i t) := by
  intro fo
  induction fo with
  | nil =>
    intro _ i t
    rw [depsList]
    constructor
    · rintro ⟨ds, hds, -⟩
      exact Option.noConfusion hds
    · intro h
      exact absurd h (foRel_nil i t)
  | cons e rest ih =>
    intro hnd i t
    rw [List.map_cons, List.nodup_cons] at hnd
    obtain ⟨hke, hnd2⟩ := hnd
    rw [depsList, foRel_cons]
    by_cases hc : isC e = true
    · rw [if_pos hc]
      by_cases hei : e.tr = i
      · have hkci : ocsrKey e = (true, i) := by
          rw [ocsrKey, hei, hc]
        have hfo2 : ¬ foRel rest i t := by
          intro hfo
          obtain ⟨x, hx, hkx⟩ := foRel_exists_c hfo
          exact hke (List.mem_map.mpr ⟨x, hx, by rw [hkx, hkci]⟩)
        by_cases hds : ((rest.filter (fun op => !(isC op))).map Op.tr).isEmpty = true
        · rw [if_pos hds, List.nil_append]
          constructor
          · rintro ⟨ds, hds2, htds⟩
            exact absurd ((ih hnd2 i t).mp ⟨ds, hds2, htds⟩) hfo2
          · rintro (⟨-, x, hx, hkx⟩ | hfo)
            · exfalso
              have : t ∈ (rest.filter (fun op => !(isC op))).map Op.tr :=
                (mem_depsVal_iff rest t).mpr ⟨x, hx, hkx⟩
              rw [List.isEmpty_iff] at hds
              rw [hds] at this
              simp at this
            · exact absurd hfo hfo2
        · rw [if_neg hds, List.singleton_append]
          constructor
          · rintro ⟨ds, hds2, htds⟩
            rw [List.lookup] at hds2
            rw [show (i == e.tr) = true from beq_iff_eq.mpr hei.symm] at hds2
            injection hds2 with h2
            rw [← h2] at htds
            exact Or.inl ⟨hkci, (mem_depsVal_iff rest t).mp htds⟩
          · rintro (⟨-, x, hx, hkx⟩ | hfo)
            · refine ⟨(rest.filter (fun op => !(isC op))).map Op.tr, ?_, ?_⟩
              · rw [List.lookup]
                rw [show (i == e.tr) = true from beq_iff_eq.mpr hei.symm]
              · exact (mem_depsVal_iff rest t).mpr ⟨x, hx, hkx⟩
            · exact absurd hfo hfo2
      · have hd1 : ¬ (ocsrKey e = (true, i) ∧ ∃ x ∈ rest, ocsrKey x = (false, t)) := by
          rintro ⟨hkci, -⟩
          rw [ocsrKey, Prod.mk.injEq] at hkci
          exact hei hkci.2
        have hlk : ∀ pre : List (String × List String),
            (∀ p ∈ pre, p.1 = e.tr) → (pre ++ depsList rest).lookup i = (depsList rest).lookup i := by
          intro pre hpre
          induction pre with
          | nil => rw [List.nil_append]
          | cons p pres ihp =>
            rw [List.cons_append]
            cases p with
            | mk k v =>
              rw [List.lookup]
              have hk : k = e.tr := hpre _ (List.mem_cons_self _ _)
              rw [show (i == k) = false from beq_eq_false_iff_ne.mpr
                (by rw [hk]; exact fun hcc => hei hcc.symm)]
              exact ihp (fun q hq => hpre q (List.mem_cons_of_mem _ hq))
        constructor
        · rintro ⟨ds, hds2, htds⟩
          rw [hlk _ ?hp] at hds2
          case hp =>
            intro p hp
            by_cases hds : ((rest.filter (fun op => !(isC op))).map Op.tr).isEmpty = true
            · rw [if_pos hds] at hp
              simp at hp
            · rw [if_neg hds] at hp
              rw [List.mem_singleton] at hp
              rw [hp]
          exact Or.inr ((ih hnd2 i t).mp ⟨ds, hds2, htds⟩)
        · rintro (hd | hfo)
          · exact absurd hd hd1
          · obtain ⟨ds, hds2, htds⟩ := (ih hnd2 i t).mpr hfo
            refine ⟨ds, ?_, htds⟩
            rw [hlk _ ?hp2]
            case hp2 =>
              intro p hp
              by_cases hds : ((rest.filter (fun op => !(isC op))).map Op.tr).isEmpty = true
              · rw [if_pos hds] at hp
                simp at hp
              · rw [if_neg hds] at hp
                rw [List.mem_singleton] at hp
                rw [hp]
            exact hds2
    · rw [if_neg hc, List.nil_append]
      have hd1 : ¬ (ocsrKey e = (true, i) ∧ ∃ x ∈ rest, ocsrKey x = (false, t)) := by
        rintro ⟨hkci, -⟩
        rw [ocsrKey, Prod.mk.injEq] at hkci
        rw [hkci.1] at hc
        exact hc rfl
      rw [ih hnd2 i t]
      constructor
      · intro hfo
        exact Or.inr hfo
      · rintro (hd | hfo)
        · exact absurd hd hd1
        · exact hfo

/-- Lookup in the deps of the reduced schedule finds t in i's entry exactly
when claim C4's dependency relation holds. -/
lemma deps_lookup_spec_iff (h : List Op) (i t : String) :
    (∃ ds, (depsList (firstOps h)).lookup i = some ds ∧ t ∈ ds) ↔ specDepsRel h i t := by
  rw [depsList_lookup_iff (firstOps h) (uniq_keys_nodup h []) i t]
  exact foRel_uniq_iff h [] i t (by simp) (by simp)

end HW8

namespace HW8

/-- satAux accepts a history exactly when every position passes its check
against the remaining suffix. -/
lemma satAux_iff (deps : List (String × List String)) : ∀ σ : List String,
    satAux deps σ = true ↔
      ∀ l1 tr l2, σ = l1 ++ tr :: l2 → checkAt deps tr l2 = true := by
  intro σ
  induction σ with
  | nil =>
    constructor
    · intro _ l1 tr l2 heq
      exfalso
      cases l1 with
      | nil => exact List.cons_ne_nil tr l2 heq.symm
      | cons b l1b =>
        rw [List.cons_append] at heq
        exact List.cons_ne_nil b _ heq.symm
    · intro _
      rfl
  | cons a rest ih =>
    rw [satAux, Bool.and_eq_true, ih]
    constructor
    · rintro ⟨hca, hrest⟩ l1 tr l2 heq
      cases l1 with
      | nil =>
        rw [List.nil_append] at heq
        injection heq with h1 h2
        subst h1
        subst h2
        exact hca
      | cons b l1b =>
        rw [List.cons_append] at heq
        injection heq with h1 h2
        exact hrest l1b tr l2 h2
    · intro hall
      refine ⟨hall [] a rest rfl, ?_⟩
      intro l1 tr l2 heq
      exact hall (a :: l1) tr l2 (by rw [heq, List.cons_append])

/-- A passing history passes on every suffix. -/
lemma satAux_suffix (deps : List (String × List String)) : ∀ (l1 l2 : List String),
    satAux deps (l1 ++ l2) = true → satAux deps l2 = true := by
  intro l1
  induction l1 with
  | nil =>
    intro l2 h
    exact h
  | cons a rest ih =>
    intro l2 h
    rw [List.cons_append, satAux, Bool.and_eq_true] at h
    exact ih l2 h.2

end HW8

/-- In a duplicate-free list, the split at an element is unique. -/
lemma nodup_split_unique : ∀ (l1 : List String) {a : String} {l2 l1b l2b : List String},
    (l1 ++ a :: l2).Nodup → l1 ++ a :: l2 = l1b ++ a :: l2b → l1 = l1b ∧ l2 = l2b := by
  intro l1
  induction l1 with
  | nil =>
    intro a l2 l1b l2b hnd heq
    cases l1b with
    | nil =>
      rw [List.nil_append, List.nil_append] at heq
      injection heq with h1 h2
      exact ⟨rfl, h2⟩
    | cons b l1c =>
      rw [List.nil_append, List.cons_append] at heq
      injection heq with h1 h2
      exfalso
      rw [List.nil_append, List.nodup_cons] at hnd
      apply hnd.1
      rw [h2]
      exact List.mem_append_right _ (List.mem_cons_self _ _)
  | cons c l1r ih =>
    intro a l2 l1b l2b hnd heq
    cases l1b with
    | nil =>
      rw [List.nil_append, List.cons_append] at heq
      injection heq with h1 h2
      exfalso
      rw [List.cons_append, List.nodup_cons] at hnd
      apply hnd.1
      rw [h1]
      exact List.mem_append_right _ (List.mem_cons_self _ _)
    | cons b l1c =>
      rw [List.cons_append, List.cons_append] at heq
      injection heq with h1 h2
      rw [List.cons_append, List.nodup_cons] at hnd
      obtain ⟨heq1, heq2⟩ := ih hnd.2 h2
      refine ⟨?_, heq2⟩
      rw [h1, heq1]

namespace HW8

/-- A dependency of i in the schedule forces i to occur among the schedule's
transactions. -/
lemma specDepsRel_mem_tr {h : List Op} {i t : String} (hrel : specDepsRel h i t) :
    i ∈ h.map Op.tr := by
  obtain ⟨p, q, hp, -, -⟩ := hrel
  obtain ⟨x, hx, hpx⟩ := (firstIdx_isSome_iff _ _).mp ⟨p, hp⟩
  rw [isCommitOf, Bool.and_eq_true] at hpx
  exact List.mem_map.mpr ⟨x, hx, beq_iff_eq.mp hpx.2⟩

/-- Bridge: on a duplicate-free serial order containing all of the schedule's
transactions, the code's per-history check holds exactly when every dependency
pair is ordered as claim C4 states. -/
lemma satAux_iff_spec (h : List Op) (σ : List String) (hnd : σ.Nodup)
    (hmem : ∀ x ∈ h.map Op.tr, x ∈ σ) :
    satAux (depsList (firstOps h)) σ = true ↔
      ∀ i t, specDepsRel h i t → afterIn σ i t := by
  constructor
  · intro hsat i t hrel
    obtain ⟨ds, hds, htds⟩ := (deps_lookup_spec_iff h i t).mpr hrel
    have hiσ : i ∈ σ := hmem i (specDepsRel_mem_tr hrel)
    obtain ⟨l1, l2, heq⟩ := List.append_of_mem hiσ
    rw [heq] at hsat
    have hs2 : satAux (depsList (firstOps h)) (i :: l2) = true := satAux_suffix _ l1 _ hsat
    rw [satAux, Bool.and_eq_true] at hs2
    have hchk := hs2.1
    rw [checkAt, hds, Bool.or_eq_true] at hchk
    rcases hchk with hemp | hall
    · exact absurd (List.isEmpty_iff.mp hemp) (depsList_lookup_ne_nil _ i ds hds)
    · rw [List.all_eq_true] at hall
      exact ⟨l1, l2, heq, of_decide_eq_true (hall t htds)⟩
  · intro hspec
    rw [satAux_iff]
    intro l1 tr l2 heq
    rw [checkAt]
    cases hds : (depsList (firstOps h)).lookup tr with
    | none => rfl
    | some ds =>
      rw [Bool.or_eq_true]
      right
      rw [List.all_eq_true]
      intro d hd
      have hrel : specDepsRel h tr d := (deps_lookup_spec_iff h tr d).mp ⟨ds, hds, hd⟩
      obtain ⟨l1b, l2b, heqb, hdl2⟩ := hspec tr d hrel
      have hnd2 : (l1 ++ tr :: l2).Nodup := by
        rw [← heq]
        exact hnd
      obtain ⟨-, h22⟩ := nodup_split_unique l1 hnd2 (heq.symm.trans heqb)
      apply decide_eq_true
      rw [h22]
      exact hdl2

end HW8

/-- C4: is_in_ocsr computes, for each committed transaction i, the set of
transactions whose first Read/Write operation occurs after i's Commit in the
schedule, and accepts exactly when some given serial order places every such
dependent transaction strictly after i.  The hypothesis states that the given
orders are duplicate-free and contain all of the schedule's transactions, as
the enumerated topological sorts of the conflict graph do. -/
theorem ocsr_deps_characterization (h : List HW8.Op) (eq : List (List String))
    (hb : ∀ σ ∈ eq, σ.Nodup ∧ ∀ x ∈ h.map HW8.Op.tr, x ∈ σ) :
    HW8.is_in_ocsr h eq = true ↔
      ∃ σ ∈ eq, ∀ i t, HW8.specDepsRel h i t → HW8.afterIn σ i t := by
  rw [HW8.is_in_ocsr, List.any_eq_true]
  constructor
  · rintro ⟨σ, hσ, hsat⟩
    exact ⟨σ, hσ, (HW8.satAux_iff_spec h σ (hb σ hσ).1 (hb σ hσ).2).mp hsat⟩
  · rintro ⟨σ, hσ, hspec⟩
    exact ⟨σ, hσ, (HW8.satAux_iff_spec h σ (hb σ hσ).1 (hb σ hσ).2).mpr hspec⟩

/-- C4 witness: the characterization applied to the schedule r1(x) c1 with its
enumerated serial order [1]. -/
theorem ocsr_deps_characterization_witness :
    HW8.is_in_ocsr schedAll [["1"]] = true ↔
      ∃ σ ∈ [["1"]], ∀ i t, HW8.specDepsRel schedAll i t → HW8.afterIn σ i t := by
  apply ocsr_deps_characterization
  intro σ hσ
  rw [List.mem_singleton] at hσ
  subst hσ
  refine ⟨by decide, ?_⟩
  intro x hx
  simp [schedAll] at hx
  simp [hx]
